import Mathlib

/-!
Verification of the Meme Arena round orchestrator (src/main.py,
src/backend/main.py, src/backend/agents.py).

The embedding models the market loop as pure state transitions:
  * `execute_strategy` mirrors `MemeAgent.execute_strategy` in
    src/backend/agents.py, with the single `random.random()` draw and the
    `random.randint` sampler passed in explicitly;
  * `applyDecision` mirrors the round-balance update in the market loop
    (buy adds, sell subtracts floored at 0, hold is a no-op);
  * `appendHistory` mirrors `history.append(entry)` followed by
    `if len(history) > 50: history.pop(0)`;
  * `tradingRun` / `runRound` / `runRounds` mirror the inner tick loop,
    a whole betting+trading round, and the outer round loop;
  * `computeWinner` mirrors the winner scan at round end;
  * the ledger wrappers mirror the try/except structure of the two
    orchestrator variants (src/main.py and src/backend/main.py).
-/

/-- Trading action returned by the decision engine. -/
inductive TradeAction where
  | buy
  | sell
  | hold
deriving DecidableEq, Repr

/-- The enumerated strategy set (`STRATEGIES` in src/main.py). -/
def STRATEGIES : List String := ["Sniper", "Hodler", "Degen", "CopyTrader", "Whale"]

/-- `MemeAgent.execute_strategy` from src/backend/agents.py.  `r` is the value
of the single `random.random()` call the invocation makes, and `ri lo hi`
models `random.randint(lo, hi)`. -/
def execute_strategy (strategy : String) (market_price : ℚ) (r : ℚ)
    (ri : ℕ → ℕ → ℕ) : TradeAction × ℕ :=
  if strategy = "Sniper" then
    if market_price < 4 then
      if r < mkRat 6 10 then (TradeAction.buy, ri 30 80) else (TradeAction.hold, 0)
    else if r < mkRat 15 100 then (TradeAction.buy, ri 10 30)
    else (TradeAction.hold, 0)
  else if strategy = "Hodler" then
    if r < mkRat 35 100 then (TradeAction.buy, ri 20 60) else (TradeAction.hold, 0)
  else if strategy = "Degen" then
    if r < mkRat 4 10 then (TradeAction.buy, ri 15 70)
    else if r < mkRat 7 10 then (TradeAction.sell, ri 10 40)
    else (TradeAction.hold, 0)
  else if strategy = "CopyTrader" then
    if 6 < market_price then
      if r < mkRat 5 10 then (TradeAction.buy, ri 20 60) else (TradeAction.hold, 0)
    else if market_price < 3 then
      if r < mkRat 3 10 then (TradeAction.sell, ri 10 30) else (TradeAction.hold, 0)
    else if r < mkRat 3 10 then (TradeAction.buy, ri 10 40)
    else (TradeAction.hold, 0)
  else if strategy = "Whale" then
    if r < mkRat 25 100 then (TradeAction.buy, ri 40 80) else (TradeAction.hold, 0)
  else (TradeAction.hold, 0)

/-- Round-balance update from the market loop (src/main.py lines 270-273):
`buy` adds the amount, `sell` subtracts floored at 0, `hold` leaves the
balance unchanged. -/
def applyDecision (b : ℤ) (d : TradeAction × ℕ) : ℤ :=
  match d.1 with
  | TradeAction.buy => b + d.2
  | TradeAction.sell => max 0 (b - d.2)
  | TradeAction.hold => b

/-- `history.append(entry); if len(history) > 50: history.pop(0)`
(src/main.py lines 282-284). -/
def appendHistory {α : Type} (h : List α) (e : α) : List α :=
  let h2 := h ++ [e]
  if 50 < h2.length then h2.tail else h2

example : execute_strategy "Hodler" 1 0 (fun lo _ => lo) = (TradeAction.buy, 20) := by decide

example : execute_strategy "Sniper" 5 (mkRat 1 10) (fun lo _ => lo) = (TradeAction.buy, 10) := by decide

example : execute_strategy "Degen" 5 (mkRat 1 2) (fun lo _ => lo) = (TradeAction.sell, 10) := by decide

example : applyDecision 5 (TradeAction.sell, 9) = 0 := by decide

/-- A simulated participant: `MemeAgent`'s `name` and `strategy` fields
(the key material and web3 handles play no role in the round logic). -/
structure MarketAgent where
  name : String
  strategy : String
deriving DecidableEq, Repr

/-- One entry of the rolling history (src/main.py lines 277-281). -/
structure HistoryEntry where
  time : ℕ
  price : ℚ
  balances : String → ℤ

/-- The published live state (`update_state` in src/main.py lines 201-205):
phase string, `roundEndTime`, and a copy of the history list. -/
structure Snapshot where
  phase : String
  roundEndTime : ℚ
  history : List HistoryEntry

/-- The per-tick inputs of the inner market loop: the drawn timestamp and
`mock_price`, plus each agent's random draws for `execute_strategy`. -/
structure Tick where
  time : ℕ
  price : ℚ
  r : MarketAgent → ℚ
  ri : MarketAgent → ℕ → ℕ → ℕ

/-- One tick's worth of balance updates (src/main.py lines 266-273): every
agent in order decides via `execute_strategy` and the decision is applied to
`round_balances[agent.name]`. -/
def tickBalances (agents : List MarketAgent) (t : Tick) (bal : String → ℤ) :
    String → ℤ :=
  agents.foldl
    (fun b ag =>
      fun n =>
        if n = ag.name then
          applyDecision (b ag.name) (execute_strategy ag.strategy t.price (t.r ag) (t.ri ag))
        else b n)
    bal

/-- State carried through the trading-phase loop: the per-round balances,
the history list, and the snapshots published so far. -/
structure TradingState where
  bal : String → ℤ
  history : List HistoryEntry
  snapshots : List Snapshot

/-- One iteration of the inner market loop (src/main.py lines 262-286):
update balances, append the history entry, publish a snapshot with phase
`"ROUND"` and the fixed end time `start_time + round_duration`. -/
def tradingTick (agents : List MarketAgent) (endT : ℚ) (st : TradingState)
    (t : Tick) : TradingState :=
  let bal2 := tickBalances agents t st.bal
  let entry : HistoryEntry := { time := t.time, price := t.price, balances := bal2 }
  let h2 := appendHistory st.history entry
  { bal := bal2
    history := h2
    snapshots := st.snapshots ++ [{ phase := "ROUND", roundEndTime := endT, history := h2 }] }

/-- The trading-phase loop run over a list of ticks, starting from balances
`bal0` and history `h0` with no snapshots published yet. -/
def tradingRun (agents : List MarketAgent) (endT : ℚ) (h0 : List HistoryEntry)
    (bal0 : String → ℤ) (ticks : List Tick) : TradingState :=
  ticks.foldl (tradingTick agents endT) { bal := bal0, history := h0, snapshots := [] }

/-- The winner scan at round end (src/main.py lines 290-297): `highest`
starts at 0 and an agent becomes the candidate winner exactly when its
balance strictly exceeds the running maximum. -/
def winnerStep (bal : String → ℤ) (acc : ℤ × Option MarketAgent)
    (ag : MarketAgent) : ℤ × Option MarketAgent :=
  if acc.1 < bal ag.name then (bal ag.name, some ag) else acc

/-- `winner_agent` after the scan over all agents. -/
def computeWinner (agents : List MarketAgent) (bal : String → ℤ) :
    Option MarketAgent :=
  (agents.foldl (winnerStep bal) (0, none)).2

/-- The names submitted to `endRound` at settlement (src/main.py lines
299-311): one call when a winner exists, none otherwise. -/
def settlementCalls (agents : List MarketAgent) (bal : String → ℤ) :
    List String :=
  match computeWinner agents bal with
  | some w => [w.name]
  | none => []

/-- Running maximum over the agents' balances, seeded with the initial
`highest = 0` of the winner scan. -/
def runMaxFrom (bal : String → ℤ) (h : ℤ) (agents : List MarketAgent) : ℤ :=
  agents.foldl (fun m ag => max m (bal ag.name)) h

example :
    computeWinner [⟨"A", "Hodler"⟩, ⟨"B", "Degen"⟩] (fun _ => 10) =
      some ⟨"A", "Hodler"⟩ := by decide

/-- State threaded through the outer round loop: the (last written)
`round_balances` dict and the `history` list created once before the loop. -/
structure MarketState where
  bal : String → ℤ
  history : List HistoryEntry

/-- The schedule of one round: how many times the betting loop publishes,
the betting deadline, the trading deadline, and the trading ticks. -/
structure RoundInput where
  bettingTicks : ℕ
  bettingEnd : ℚ
  tradingEnd : ℚ
  ticks : List Tick

/-- Observable trace of one round of the market loop. -/
structure RoundTrace where
  bettingEntryBal : String → ℤ
  bettingSnaps : List Snapshot
  tradingEntryBal : String → ℤ
  tradingSnaps : List Snapshot
  settleCalls : List String

/-- One iteration of the outer round loop (src/main.py lines 221-314):
publish `"BETTING"` snapshots with the existing history, reset
`round_balances` to zero for every agent at trading entry, run the trading
ticks, and compute the settlement calls from the final balances. -/
def runRound (agents : List MarketAgent) (st : MarketState) (inp : RoundInput) :
    MarketState × RoundTrace :=
  let bSnaps := List.replicate inp.bettingTicks
    ({ phase := "BETTING", roundEndTime := inp.bettingEnd, history := st.history } : Snapshot)
  let bal0 : String → ℤ := fun _ => 0
  let tr := tradingRun agents inp.tradingEnd st.history bal0 inp.ticks
  ({ bal := tr.bal, history := tr.history },
   { bettingEntryBal := st.bal
     bettingSnaps := bSnaps
     tradingEntryBal := bal0
     tradingSnaps := tr.snapshots
     settleCalls := settlementCalls agents tr.bal })

/-- The outer round loop run over a list of round inputs. -/
def runRounds (agents : List MarketAgent) (st : MarketState) :
    List RoundInput → MarketState × List RoundTrace
  | [] => (st, [])
  | inp :: rest =>
    let p := runRound agents st inp
    let q := runRounds agents p.1 rest
    (q.1, p.2 :: q.2)

/-- Process-start state: `history = []` is created once before the round
loop (src/main.py line 219); no balances have been written yet. -/
def initialState : MarketState := { bal := fun _ => 0, history := [] }

/-- The history entries a trading phase generates, in order (entry `i`
records the balances after tick `i`). -/
def tradingEntries (agents : List MarketAgent) (bal : String → ℤ) :
    List Tick → List HistoryEntry
  | [] => []
  | t :: ts =>
    let bal2 := tickBalances agents t bal
    { time := t.time, price := t.price, balances := bal2 }
      :: tradingEntries agents bal2 ts

/-- Outcome of one ledger submission: `Except.error` models a raised
exception in the underlying web3 call. -/
abbrev LedgerResult := Except String Unit

/-- The ledger interface used by the orchestrator: the `isAgent` view call,
and the `registerAgent`, `setBettingActive`, native-transfer funding and
`endRound` transactions. -/
structure LedgerOps where
  isAgent : MarketAgent → Bool
  registerAgent : MarketAgent → LedgerResult
  setBettingActive : Bool → LedgerResult
  fundTransfer : MarketAgent → LedgerResult
  endRound : String → LedgerResult

/-- `try ... except` around a single submission (src/main.py): the error is
turned into a log line and swallowed. -/
def tryCall (r : LedgerResult) : String :=
  match r with
  | Except.ok _ => "ok"
  | Except.error e => "Failed: " ++ e

/-- `register_agents` from src/main.py lines 153-173: per agent, skip when
`isAgent` is already true, otherwise submit `registerAgent`; the whole
attempt is inside `try/except`, so each agent yields a log entry and the
loop always reaches the end. -/
def register_agents (ops : LedgerOps) : List MarketAgent → List (MarketAgent × String)
  | [] => []
  | ag :: rest =>
    (ag, if ops.isAgent ag then "skipped" else tryCall (ops.registerAgent ag))
      :: register_agents ops rest

/-- The agents for which `register_agents` submits a `registerAgent`
transaction (the body of the `if not isAgent` path). -/
def registerCalls (ops : LedgerOps) : List MarketAgent → List MarketAgent
  | [] => []
  | ag :: rest =>
    if ops.isAgent ag then registerCalls ops rest
    else ag :: registerCalls ops rest

/-- Orchestrator phases. -/
inductive Phase where
  | WAITING
  | BETTING
  | TRADING
  | SETTLING
deriving DecidableEq, Repr

/-- Startup of the top-level orchestrator (src/main.py `blockchain_startup`
and `market_loop`): registration runs to completion whatever the individual
outcomes, and the market loop then enters the betting phase. -/
def startup_top (ops : LedgerOps) (agents : List MarketAgent) : Phase :=
  let _ := register_agents ops agents
  Phase.BETTING

/-- `register_agents` from src/backend/main.py lines 52-75: there is no
`try/except`, so a raising `registerAgent` submission propagates out of the
loop and aborts it. Returns the registered agents on success. -/
def register_agents_backend (ops : LedgerOps) :
    List MarketAgent → Except String (List MarketAgent)
  | [] => Except.ok []
  | ag :: rest =>
    if ops.isAgent ag then register_agents_backend ops rest
    else
      match ops.registerAgent ag with
      | Except.ok _ => (register_agents_backend ops rest).map (ag :: ·)
      | Except.error e => Except.error e

/-- Startup of the backend orchestrator (src/backend/main.py `main`):
`market_loop` (and hence the betting phase) is reached only if
`register_agents` returns without raising. -/
def startup_backend (ops : LedgerOps) (agents : List MarketAgent) :
    Except String Phase :=
  (register_agents_backend ops agents).map (fun _ => Phase.BETTING)

/-- The settlement step of the market loop (src/main.py lines 299-312):
the `endRound` submission, when attempted, is inside `try/except`, and the
loop breaks to the next round's betting phase in every case. -/
def settleStep (ops : LedgerOps) (winner : Option MarketAgent) : List String × Phase :=
  match winner with
  | some w => ([tryCall (ops.endRound w.name)], Phase.BETTING)
  | none => ([], Phase.BETTING)

/-- The betting-flag toggles at the phase boundaries (src/main.py lines
227-256): each is inside `try/except`; the phase that follows does not
depend on the submission outcome. -/
def setBettingStep (ops : LedgerOps) (flag : Bool) (next : Phase) : String × Phase :=
  (tryCall (ops.setBettingActive flag), next)

/-! ### Basic lemmas about the registry update -/

lemma applyDecision_nonneg (b : ℤ) (d : TradeAction × ℕ) (hb : 0 ≤ b) :
    0 ≤ applyDecision b d := by
  rcases d with ⟨a, q⟩
  cases a <;> simp [applyDecision] <;> omega

lemma applyDecision_le (b : ℤ) (d : TradeAction × ℕ) (hd : d.1 ≠ TradeAction.sell) :
    b ≤ applyDecision b d := by
  rcases d with ⟨a, q⟩
  cases a
  · simp [applyDecision]
  · exact absurd rfl hd
  · simp [applyDecision]

lemma tickBalances_nonneg (agents : List MarketAgent) (t : Tick)
    (bal : String → ℤ) (hb : ∀ n, 0 ≤ bal n) (n : String) :
    0 ≤ tickBalances agents t bal n := by
  induction agents generalizing bal with
  | nil => exact hb n
  | cons ag rest ih =>
    simp only [tickBalances, List.foldl_cons] at *
    apply ih
    intro m
    by_cases hm : m = ag.name
    · simp only [hm, if_pos rfl]
      exact applyDecision_nonneg _ _ (hb _)
    · simp only [if_neg hm]
      exact hb m

/-- The Sniper, Hodler and Whale branches of `execute_strategy` only ever
produce `buy` or `hold`. -/
lemma execute_strategy_no_sell (s : String)
    (hs : s ∈ (["Sniper", "Hodler", "Whale"] : List String))
    (p r : ℚ) (ri : ℕ → ℕ → ℕ) :
    (execute_strategy s p r ri).1 ≠ TradeAction.sell := by
  simp only [List.mem_cons, List.mem_singleton, List.not_mem_nil, or_false] at hs
  rcases hs with rfl | rfl | rfl <;>
    · unfold execute_strategy
      repeat' split
      all_goals simp_all

lemma tickBalances_mono (agents : List MarketAgent) (t : Tick)
    (bal : String → ℤ) (name : String)
    (hS : ∀ ag ∈ agents, ag.name = name →
      ag.strategy ∈ (["Sniper", "Hodler", "Whale"] : List String)) :
    bal name ≤ tickBalances agents t bal name := by
  induction agents generalizing bal with
  | nil => exact le_refl _
  | cons ag rest ih =>
    simp only [tickBalances, List.foldl_cons] at *
    refine le_trans ?_ (ih _ (fun b hb hn => hS b (List.mem_cons_of_mem _ hb) hn))
    by_cases hm : name = ag.name
    · simp only [hm, if_pos rfl]
      rw [← hm]
      exact applyDecision_le _ _
        (execute_strategy_no_sell _ (hS ag (List.mem_cons_self _ _) hm.symm) _ _ _)
    · simp only [if_neg hm]
      exact le_refl _

/-! ### Structure of the trading-phase fold -/

lemma tradingFold_bal (agents : List MarketAgent) (endT : ℚ) :
    ∀ (ticks : List Tick) (st : TradingState),
      (ticks.foldl (tradingTick agents endT) st).bal
        = ticks.foldl (fun b t => tickBalances agents t b) st.bal
  | [], _ => rfl
  | t :: ts, st => by
    simp only [List.foldl_cons]
    exact tradingFold_bal agents endT ts _

lemma tradingFold_history (agents : List MarketAgent) (endT : ℚ) :
    ∀ (ticks : List Tick) (st : TradingState),
      (ticks.foldl (tradingTick agents endT) st).history
        = List.foldl appendHistory st.history (tradingEntries agents st.bal ticks)
  | [], _ => rfl
  | t :: ts, st => by
    simp only [List.foldl_cons, tradingEntries]
    exact tradingFold_history agents endT ts _

lemma tradingFold_snaps_acc (agents : List MarketAgent) (endT : ℚ) :
    ∀ (ticks : List Tick) (bal : String → ℤ) (h : List HistoryEntry)
      (ss : List Snapshot),
      (ticks.foldl (tradingTick agents endT) ⟨bal, h, ss⟩).snapshots
        = ss ++ (ticks.foldl (tradingTick agents endT) ⟨bal, h, []⟩).snapshots
  | [], _, _, _ => by simp
  | t :: ts, bal, h, ss => by
    simp only [List.foldl_cons, tradingTick]
    rw [tradingFold_snaps_acc agents endT ts _ _ (ss ++ _),
      tradingFold_snaps_acc agents endT ts _ _ ([] ++ _)]
    simp

/-! ### The history buffer -/

lemma appendHistory_length {α : Type} (h : List α) (e : α) (hl : h.length ≤ 50) :
    (appendHistory h e).length = min (h.length + 1) 50 := by
  simp only [appendHistory]
  split <;> rename_i hc <;> simp at hc ⊢ <;> omega

lemma appendHistory_le {α : Type} (h : List α) (e : α) (hl : h.length ≤ 50) :
    (appendHistory h e).length ≤ 50 := by
  rw [appendHistory_length h e hl]
  omega

/-- Folding appends over the buffer keeps exactly the newest 50 elements:
the result is the suffix of `h ++ es` past the first `|h| + |es| - 50`. -/
lemma appendHistory_fold_drop {α : Type} :
    ∀ (es : List α) (h : List α), h.length ≤ 50 →
      List.foldl appendHistory h es = (h ++ es).drop (h.length + es.length - 50)
  | [], h, hl => by
    simp only [List.foldl_nil, List.append_nil, List.length_nil]
    rw [Nat.sub_eq_zero_of_le (by omega), List.drop_zero]
  | e :: es, h, hl => by
    simp only [List.foldl_cons]
    by_cases hc : h.length = 50
    · have h1 : appendHistory h e = (h ++ [e]).drop 1 := by
        simp [appendHistory, hc, List.drop_one]
      have h3 : ((h ++ [e]).drop 1).length = 50 := by
        simp [hc]
      rw [h1, appendHistory_fold_drop es _ (le_of_eq h3), h3]
      have h4 : (h ++ [e]).drop 1 ++ es = (h ++ e :: es).drop 1 := by
        rw [show h ++ e :: es = (h ++ [e]) ++ es by simp]
        exact (@List.drop_append_of_le_length _ (h ++ [e]) es 1 (by simp)).symm
      rw [h4, List.drop_drop]
      congr 1
      simp [hc]
      omega
    · have hlt : h.length + 1 ≤ 50 := by omega
      have h1 : appendHistory h e = h ++ [e] := by
        simp only [appendHistory]
        rw [if_neg (by simp; omega)]
      rw [h1, appendHistory_fold_drop es _ (by simp; omega)]
      have h2 : h ++ [e] ++ es = h ++ e :: es := by simp
      rw [h2]
      congr 1
      simp
      omega

/-! ### The winner scan -/

lemma le_runMaxFrom (bal : String → ℤ) :
    ∀ (agents : List MarketAgent) (h : ℤ), h ≤ runMaxFrom bal h agents
  | [], _ => le_refl _
  | ag :: rest, h => by
    simp only [runMaxFrom, List.foldl_cons]
    exact le_trans (le_max_left _ _) (le_runMaxFrom bal rest _)

lemma runMaxFrom_cons (bal : String → ℤ) (h : ℤ) (ag : MarketAgent)
    (rest : List MarketAgent) :
    runMaxFrom bal h (ag :: rest) = runMaxFrom bal (max h (bal ag.name)) rest := rfl

/-- Full characterisation of the winner scan: the final `highest` is the
running maximum, and the final `winner_agent` is the first agent whose
balance equals that maximum provided it beats the seed, otherwise the seed
candidate. -/
lemma winnerFold_eq (bal : String → ℤ) :
    ∀ (agents : List MarketAgent) (h : ℤ) (w : Option MarketAgent),
      agents.foldl (winnerStep bal) (h, w)
        = (runMaxFrom bal h agents,
           if h < runMaxFrom bal h agents
           then agents.find? (fun ag => bal ag.name == runMaxFrom bal h agents)
           else w)
  | [], h, w => by
    simp [runMaxFrom, winnerStep]
  | ag :: rest, h, w => by
    rw [List.foldl_cons, runMaxFrom_cons]
    by_cases hc : h < bal ag.name
    · have hmax : max h (bal ag.name) = bal ag.name := max_eq_right (le_of_lt hc)
      rw [hmax]
      have hstep : winnerStep bal (h, w) ag = (bal ag.name, some ag) := by
        simp [winnerStep, hc]
      rw [hstep, winnerFold_eq bal rest (bal ag.name) (some ag)]
      have hM : bal ag.name ≤ runMaxFrom bal (bal ag.name) rest :=
        le_runMaxFrom bal rest _
      have hhM : h < runMaxFrom bal (bal ag.name) rest := lt_of_lt_of_le hc hM
      rw [if_pos hhM]
      by_cases heq : bal ag.name = runMaxFrom bal (bal ag.name) rest
      · rw [if_neg (by omega),
          List.find?_cons_of_pos _ (by simp only [beq_iff_eq]; exact heq)]
      · have hlt : bal ag.name < runMaxFrom bal (bal ag.name) rest :=
          lt_of_le_of_ne hM heq
        rw [if_pos hlt,
          List.find?_cons_of_neg _ (by simp only [beq_iff_eq]; exact heq)]
    · have hle : bal ag.name ≤ h := not_lt.mp hc
      have hmax : max h (bal ag.name) = h := max_eq_left hle
      rw [hmax]
      have hstep : winnerStep bal (h, w) ag = (h, w) := by
        simp [winnerStep, hc]
      rw [hstep, winnerFold_eq bal rest h w]
      by_cases hlt : h < runMaxFrom bal h rest
      · rw [if_pos hlt, if_pos hlt,
          List.find?_cons_of_neg _ (by simp only [beq_iff_eq]; omega)]
      · rw [if_neg hlt, if_neg hlt]

lemma tradingRun_snaps_cons (agents : List MarketAgent) (endT : ℚ)
    (h0 : List HistoryEntry) (bal0 : String → ℤ) (t : Tick) (ts : List Tick) :
    (tradingRun agents endT h0 bal0 (t :: ts)).snapshots
      = ({ phase := "ROUND", roundEndTime := endT,
           history := appendHistory h0
             { time := t.time, price := t.price,
               balances := tickBalances agents t bal0 } } : Snapshot)
        :: (tradingRun agents endT
              (appendHistory h0
                { time := t.time, price := t.price,
                  balances := tickBalances agents t bal0 })
              (tickBalances agents t bal0) ts).snapshots := by
  simp only [tradingRun, List.foldl_cons, tradingTick, List.nil_append]
  rw [tradingFold_snaps_acc]
  rfl

/-! ### Claim theorems -/

/-- Claim C1, counterexample to the claim as stated: with two participants
tied at the positive maximum round balance 10, the winner scan still selects
the first of them and a settlement call is submitted, whereas the claim
requires that no settlement call be made on a shared maximum. -/
theorem C1_counterexample :
    (fun _ => (10 : ℤ)) "Agent_A" = (fun _ => (10 : ℤ)) "Agent_B"
    ∧ computeWinner [⟨"Agent_A", "Hodler"⟩, ⟨"Agent_B", "Degen"⟩]
        (fun _ => (10 : ℤ)) = some ⟨"Agent_A", "Hodler"⟩
    ∧ settlementCalls [⟨"Agent_A", "Hodler"⟩, ⟨"Agent_B", "Degen"⟩]
        (fun _ => (10 : ℤ)) = ["Agent_A"] :=
  ⟨rfl, by decide, by decide⟩

/-- Claim C1 (amended): the settlement target is fully characterised by the
winner scan: a winner exists exactly when the maximum round balance (seeded
with 0) is positive, and it is then the first participant in iteration order
whose balance equals that maximum.  In particular a participant holding a
positive strictly-highest balance is the winner, but a tie at a positive
maximum is settled in favour of the first maximum holder rather than
suppressing settlement. -/
theorem C1_settlement_characterisation (agents : List MarketAgent)
    (bal : String → ℤ) :
    computeWinner agents bal
      = (if 0 < runMaxFrom bal 0 agents
         then agents.find? (fun ag => bal ag.name == runMaxFrom bal 0 agents)
         else none) := by
  unfold computeWinner
  rw [winnerFold_eq bal agents 0 none]

/-- Claim C2 (amended): every snapshot published by the trading-phase loop
carries phase `"ROUND"` (the source publishes `update_state("ROUND", ...)`,
not `"TRADING"`) and the unchanged end time `start_time + round_duration`;
the history length of the `i`-th snapshot is the length carried into the
phase plus `i + 1`, capped at the buffer capacity 50 (the buffer is not
cleared between rounds, so the length equals the tick count only when the
phase starts with an empty buffer). -/
theorem C2_trading_snapshots (agents : List MarketAgent) (endT : ℚ)
    (bal0 : String → ℤ) (ticks : List Tick) (h0 : List HistoryEntry)
    (hl : h0.length ≤ 50) :
    (∀ s ∈ (tradingRun agents endT h0 bal0 ticks).snapshots,
        s.phase = "ROUND" ∧ s.roundEndTime = endT)
    ∧ (tradingRun agents endT h0 bal0 ticks).snapshots.map
          (fun s => s.history.length)
        = (List.range ticks.length).map (fun i => min (h0.length + (i + 1)) 50) := by
  induction ticks generalizing bal0 h0 with
  | nil =>
    refine ⟨?_, ?_⟩
    · intro s hs
      simp only [tradingRun, List.foldl_nil] at hs
      cases hs
    · simp [tradingRun]
  | cons t ts ih =>
    rw [tradingRun_snaps_cons]
    have hl1 : (appendHistory h0
        ({ time := t.time, price := t.price,
           balances := tickBalances agents t bal0 } : HistoryEntry)).length
        = min (h0.length + 1) 50 := appendHistory_length _ _ hl
    obtain ⟨ihA, ihB⟩ := ih (tickBalances agents t bal0)
      (appendHistory h0
        ({ time := t.time, price := t.price,
           balances := tickBalances agents t bal0 } : HistoryEntry))
      (by omega)
    constructor
    · intro s hs
      simp only [List.mem_cons] at hs
      rcases hs with rfl | hs
      · exact ⟨rfl, rfl⟩
      · exact ihA s hs
    · simp only [List.map_cons, List.length_cons]
      rw [List.range_succ_eq_map, List.map_cons, List.map_map, ihB]
      refine congrArg₂ List.cons ?_ ?_
      · simpa using hl1
      · apply List.map_congr_left
        intro i hi
        simp only [Function.comp_apply, Nat.succ_eq_add_one]
        omega

/-- Claim C2, witness: a one-tick trading phase starting from an empty
buffer publishes exactly one snapshot, with phase `"ROUND"`, the fixed end
time, and history length 1. -/
theorem C2_witness :
    (([] : List HistoryEntry).length ≤ 50)
    ∧ ((∀ s ∈ (tradingRun [] 0 [] (fun _ => 0)
            [⟨0, 1, fun _ => 0, fun _ lo _ => lo⟩]).snapshots,
          s.phase = "ROUND" ∧ s.roundEndTime = 0)
       ∧ (tradingRun [] 0 [] (fun _ => 0)
            [⟨0, 1, fun _ => 0, fun _ lo _ => lo⟩]).snapshots.map
              (fun s => s.history.length)
          = (List.range ([⟨0, 1, fun _ => 0, fun _ lo _ => lo⟩] : List Tick).length).map
              (fun i => min (([] : List HistoryEntry).length + (i + 1)) 50)) :=
  ⟨by decide,
   C2_trading_snapshots [] 0 (fun _ => 0)
     [⟨0, 1, fun _ => 0, fun _ lo _ => lo⟩] [] (by decide)⟩

/-- Claim C2, counterexample to the claim as stated: with one history entry
carried over from an earlier round, the snapshot published at the first
trading tick has phase `"ROUND"` (not `"TRADING"`) and history length 2
(not 1, the number of ticks completed in the phase). -/
theorem C2_counterexample :
    (tradingRun [] 0 [⟨0, 1, fun _ => 0⟩] (fun _ => 0)
        [⟨1, 2, fun _ => 0, fun _ lo _ => lo⟩]).snapshots.map
        (fun s => (s.phase, s.history.length)) = [("ROUND", 2)]
    ∧ "ROUND" ≠ "TRADING" ∧ (2 : ℕ) ≠ 1 :=
  ⟨by decide, by decide, by decide⟩

/-- Claim C3, counterexample to the claim as stated: after a first round in
which the Hodler agent buys 20, the balance observed at the start of the
next round's betting phase is 20, not 0 — `round_balances` is reset at
trading-phase entry (src/main.py line 260), after the betting phase. -/
theorem C3_counterexample :
    (runRound [⟨"H", "Hodler"⟩]
        (runRound [⟨"H", "Hodler"⟩] initialState
          ⟨1, 0, 0, [⟨0, 1, fun _ => 0, fun _ lo _ => lo⟩]⟩).1
        ⟨1, 0, 0, []⟩).2.bettingEntryBal "H" = 20
    ∧ (20 : ℤ) ≠ 0 :=
  ⟨by decide, by decide⟩

/-- Claim C3 (amended): at the instant the TRADING phase starts (not the
betting phase), every participant's per-round balance is 0: the balance
dict is rebuilt with all zeroes at trading entry, and the trading outcome
is therefore independent of the balances carried into the round. -/
theorem C3_reset_at_trading_entry (agents : List MarketAgent)
    (st : MarketState) (inp : RoundInput) (name : String) :
    (runRound agents st inp).2.tradingEntryBal name = 0
    ∧ ∀ b2 : String → ℤ,
        (runRound agents { bal := b2, history := st.history } inp).1.bal
          = (runRound agents st inp).1.bal :=
  ⟨rfl, fun _ => rfl⟩

/-- Claim C5: the history buffer, grown from empty by `appendHistory`,
never exceeds 50 entries, and keeps exactly the newest entries: the result
is the input sequence with its oldest `N - 50` entries dropped, in original
order.  For 51 appended entries this is entries 2..51 with entry 1 evicted. -/
theorem C5_history_capacity_fifo (α : Type) (es : List α) :
    (List.foldl appendHistory ([] : List α) es).length ≤ 50
    ∧ List.foldl appendHistory ([] : List α) es = es.drop (es.length - 50) := by
  have h := appendHistory_fold_drop es ([] : List α) (by simp)
  simp only [List.length_nil, List.nil_append, Nat.zero_add] at h
  refine ⟨?_, h⟩
  rw [h, List.length_drop]
  omega

lemma foldl_applyDecision_nonneg :
    ∀ (ds : List (TradeAction × ℕ)) (b : ℤ), 0 ≤ b →
      0 ≤ List.foldl applyDecision b ds
  | [], _, hb => hb
  | d :: ds, b, hb => by
    rw [List.foldl_cons]
    exact foldl_applyDecision_nonneg ds _ (applyDecision_nonneg b d hb)

lemma foldl_tickBalances_nonneg (agents : List MarketAgent) :
    ∀ (ticks : List Tick) (bal : String → ℤ), (∀ n, 0 ≤ bal n) →
      ∀ n, 0 ≤ List.foldl (fun b t => tickBalances agents t b) bal ticks n
  | [], _, hb, n => hb n
  | t :: ts, bal, hb, n => by
    rw [List.foldl_cons]
    exact foldl_tickBalances_nonneg agents ts _
      (fun m => tickBalances_nonneg agents t bal hb m) n

/-- Claim C6: round balances are non-negative after any sequence of applied
decisions: both for a raw decision list folded from the initial balance 0,
and for every agent name across any trading-phase run of the market loop
(which starts every agent at 0). -/
theorem C6_balances_nonneg :
    (∀ ds : List (TradeAction × ℕ), 0 ≤ List.foldl applyDecision 0 ds)
    ∧ ∀ (agents : List MarketAgent) (endT : ℚ) (h0 : List HistoryEntry)
        (ticks : List Tick) (name : String),
        0 ≤ (tradingRun agents endT h0 (fun _ => 0) ticks).bal name := by
  refine ⟨fun ds => foldl_applyDecision_nonneg ds 0 le_rfl, ?_⟩
  intro agents endT h0 ticks name
  rw [tradingRun, tradingFold_bal]
  exact foldl_tickBalances_nonneg agents ticks _ (fun _ => le_rfl) name

lemma register_agents_fst (ops : LedgerOps) :
    ∀ agents : List MarketAgent,
      (register_agents ops agents).map Prod.fst = agents
  | [] => rfl
  | ag :: rest => by
    simp only [register_agents, List.map_cons]
    rw [register_agents_fst ops rest]

/-- Claim C7 (amended): in the top-level orchestrator (src/main.py) every
ledger submission is wrapped in its own `try/except`: registration processes
every agent whatever the individual outcomes and startup still reaches the
betting phase, and the betting-flag and settlement submissions never change
the phase that follows them. -/
theorem C7_failures_do_not_abort_top (ops : LedgerOps)
    (agents : List MarketAgent) (w : Option MarketAgent) (flag : Bool)
    (next : Phase) :
    startup_top ops agents = Phase.BETTING
    ∧ (register_agents ops agents).map Prod.fst = agents
    ∧ (settleStep ops w).2 = Phase.BETTING
    ∧ (setBettingStep ops flag next).2 = next := by
  refine ⟨rfl, register_agents_fst ops agents, ?_, rfl⟩
  cases w <;> rfl

/-- Claim C7, counterexample to the claim as stated: in the backend
orchestrator (src/backend/main.py) `register_agents` has no `try/except`,
so a raising `registerAgent` submission for the first agent propagates and
startup never reaches the betting phase. -/
theorem C7_counterexample :
    startup_backend
      { isAgent := fun _ => false
        registerAgent := fun ag =>
          if ag.name = "Agent_Sniper" then Except.error "boom" else Except.ok ()
        setBettingActive := fun _ => Except.ok ()
        fundTransfer := fun _ => Except.ok ()
        endRound := fun _ => Except.ok () }
      [⟨"Agent_Sniper", "Sniper"⟩, ⟨"Agent_Hodler", "Hodler"⟩]
      = Except.error "boom" := by
  simp [startup_backend, register_agents_backend, Except.map]

/-- Claim C8: registration submits the `registerAgent` transaction for
exactly the agents whose `isAgent` check returns false: the submitted list
is the filter of the agent list by the negated check, and membership in it
is equivalent to being an agent whose check returned false. -/
theorem C8_register_iff_not_registered (ops : LedgerOps)
    (agents : List MarketAgent) (ag : MarketAgent) :
    registerCalls ops agents = agents.filter (fun a => !(ops.isAgent a))
    ∧ (ag ∈ registerCalls ops agents ↔ ag ∈ agents ∧ ops.isAgent ag = false) := by
  have hfilter : ∀ l : List MarketAgent,
      registerCalls ops l = l.filter (fun a => !(ops.isAgent a)) := by
    intro l
    induction l with
    | nil => rfl
    | cons a rest ih =>
      by_cases ha : ops.isAgent a
      · rw [registerCalls, if_pos ha, ih, List.filter_cons_of_neg (by simp [ha])]
      · rw [registerCalls, if_neg ha, ih, List.filter_cons_of_pos (by simp [ha])]
  refine ⟨hfilter agents, ?_⟩
  rw [hfilter agents]
  simp [List.mem_filter]

/-- Claim C9: the Sniper, Hodler and Whale strategies never produce a
`sell` decision, and consequently the round balance of an agent whose name
is only carried by agents with these strategies never decreases from one
trading tick to the next. -/
theorem C9_no_sell_balance_monotone (s : String)
    (hs : s ∈ (["Sniper", "Hodler", "Whale"] : List String))
    (p r : ℚ) (ri : ℕ → ℕ → ℕ) (agents : List MarketAgent) (name : String)
    (hag : ∀ ag ∈ agents, ag.name = name →
      ag.strategy ∈ (["Sniper", "Hodler", "Whale"] : List String))
    (endT : ℚ) (h0 : List HistoryEntry) (bal0 : String → ℤ)
    (ticks : List Tick) (t : Tick) :
    (execute_strategy s p r ri).1 ≠ TradeAction.sell
    ∧ (tradingRun agents endT h0 bal0 ticks).bal name
        ≤ (tradingRun agents endT h0 bal0 (ticks ++ [t])).bal name := by
  refine ⟨execute_strategy_no_sell s hs p r ri, ?_⟩
  rw [tradingRun, tradingRun, tradingFold_bal, tradingFold_bal,
    List.foldl_append]
  exact tickBalances_mono agents t _ name hag

/-- Claim C9, witness: a single Hodler agent at a concrete tick (it buys
20): its balance moves from 0 to 20, non-decreasing. -/
theorem C9_witness :
    ("Hodler" ∈ (["Sniper", "Hodler", "Whale"] : List String)
      ∧ ∀ ag ∈ ([⟨"H", "Hodler"⟩] : List MarketAgent), ag.name = "H" →
          ag.strategy ∈ (["Sniper", "Hodler", "Whale"] : List String))
    ∧ ((execute_strategy "Hodler" 1 0 (fun lo _ => lo)).1 ≠ TradeAction.sell
       ∧ (tradingRun [⟨"H", "Hodler"⟩] 0 [] (fun _ => 0) []).bal "H"
           ≤ (tradingRun [⟨"H", "Hodler"⟩] 0 [] (fun _ => 0)
               ([] ++ [⟨0, 1, fun _ => 0, fun _ lo _ => lo⟩])).bal "H") :=
  ⟨⟨by decide, by decide⟩,
   C9_no_sell_balance_monotone "Hodler" (by decide) 1 0 (fun lo _ => lo)
     [⟨"H", "Hodler"⟩] "H" (by decide) 0 [] (fun _ => 0) []
     ⟨0, 1, fun _ => 0, fun _ lo _ => lo⟩⟩

lemma tradingEntries_length (agents : List MarketAgent) :
    ∀ (ticks : List Tick) (bal : String → ℤ),
      (tradingEntries agents bal ticks).length = ticks.length
  | [], _ => rfl
  | t :: ts, bal => by
    simp only [tradingEntries, List.length_cons]
    rw [tradingEntries_length agents ts _]

/-- Claim C10: the round loop never clears the history buffer: every
snapshot published during a round's betting phase carries exactly the
history accumulated by the previous rounds, and the history after the
round is the carried-over history followed by the new trading entries,
trimmed FIFO-style to the 50 newest. -/
theorem C10_history_persists (agents : List MarketAgent) (st : MarketState)
    (inp : RoundInput) (hl : st.history.length ≤ 50) :
    (∀ s ∈ (runRound agents st inp).2.bettingSnaps, s.history = st.history)
    ∧ (runRound agents st inp).1.history
        = (st.history ++ tradingEntries agents (fun _ => 0) inp.ticks).drop
            (st.history.length + inp.ticks.length - 50) := by
  constructor
  · intro s hs
    have := List.eq_of_mem_replicate hs
    rw [this]
  · show (tradingRun agents inp.tradingEnd st.history (fun _ => 0) inp.ticks).history = _
    rw [tradingRun, tradingFold_history]
    rw [appendHistory_fold_drop _ _ hl]
    rw [tradingEntries_length]

/-- Claim C10, witness: a trivial round (one betting snapshot, no trading
ticks) starting from the empty initial history: the betting snapshot
carries the empty history and the final history is empty. -/
theorem C10_witness :
    (initialState.history.length ≤ 50)
    ∧ ((∀ s ∈ (runRound [] initialState ⟨1, 0, 0, []⟩).2.bettingSnaps,
          s.history = initialState.history)
       ∧ (runRound [] initialState ⟨1, 0, 0, []⟩).1.history
           = (initialState.history
               ++ tradingEntries [] (fun _ => 0) (⟨1, 0, 0, []⟩ : RoundInput).ticks).drop
               (initialState.history.length + (⟨1, 0, 0, []⟩ : RoundInput).ticks.length - 50)) :=
  ⟨by decide, C10_history_persists [] initialState ⟨1, 0, 0, []⟩ (by decide)⟩

/-- Claim C4: for every strategy tag in the enumerated set and every price
in the feed's range, the decision carries quantity 0 whenever the action is
`hold`, and otherwise a non-negative integer quantity within the strategy's
documented `randint` range: every such range has bounds inside `[10, 80]`,
hence inside `[0, 80]`. -/
theorem C4_decision_quantity_bounds (s : String) (hs : s ∈ STRATEGIES)
    (p r : ℚ) (ri : ℕ → ℕ → ℕ)
    (hp1 : mkRat 1 10 ≤ p) (hp2 : p ≤ 10)
    (hri : ∀ lo hi, lo ≤ hi → lo ≤ ri lo hi ∧ ri lo hi ≤ hi) :
    ((execute_strategy s p r ri).1 = TradeAction.hold
        → (execute_strategy s p r ri).2 = 0)
    ∧ ((execute_strategy s p r ri).1 ≠ TradeAction.hold
        → 10 ≤ (execute_strategy s p r ri).2)
    ∧ (execute_strategy s p r ri).2 ≤ 80 := by
  simp only [STRATEGIES, List.mem_cons, List.not_mem_nil, or_false] at hs
  have hq : ∀ lo hi : ℕ, lo ≤ hi → hi ≤ 80 → ri lo hi ≤ 80 :=
    fun lo hi h1 h2 => le_trans (hri lo hi h1).2 h2
  have hq2 : ∀ lo hi : ℕ, lo ≤ hi → 10 ≤ lo → 10 ≤ ri lo hi :=
    fun lo hi h1 h2 => le_trans h2 (hri lo hi h1).1
  rcases hs with rfl | rfl | rfl | rfl | rfl
  · unfold execute_strategy
    rw [if_pos rfl]
    repeat' split
    all_goals exact ⟨by simp,
      by first
        | exact fun _ => hq2 30 80 (by norm_num) (by norm_num)
        | exact fun _ => hq2 10 30 (by norm_num) (by norm_num)
        | simp,
      by first
        | exact hq 30 80 (by norm_num) (by norm_num)
        | exact hq 10 30 (by norm_num) (by norm_num)
        | norm_num⟩
  · unfold execute_strategy
    rw [if_neg (by decide), if_pos rfl]
    repeat' split
    all_goals exact ⟨by simp,
      by first
        | exact fun _ => hq2 20 60 (by norm_num) (by norm_num)
        | simp,
      by first
        | exact hq 20 60 (by norm_num) (by norm_num)
        | norm_num⟩
  · unfold execute_strategy
    rw [if_neg (by decide), if_neg (by decide), if_pos rfl]
    repeat' split
    all_goals exact ⟨by simp,
      by first
        | exact fun _ => hq2 15 70 (by norm_num) (by norm_num)
        | exact fun _ => hq2 10 40 (by norm_num) (by norm_num)
        | simp,
      by first
        | exact hq 15 70 (by norm_num) (by norm_num)
        | exact hq 10 40 (by norm_num) (by norm_num)
        | norm_num⟩
  · unfold execute_strategy
    rw [if_neg (by decide), if_neg (by decide), if_neg (by decide), if_pos rfl]
    repeat' split
    all_goals exact ⟨by simp,
      by first
        | exact fun _ => hq2 20 60 (by norm_num) (by norm_num)
        | exact fun _ => hq2 10 30 (by norm_num) (by norm_num)
        | exact fun _ => hq2 10 40 (by norm_num) (by norm_num)
        | simp,
      by first
        | exact hq 20 60 (by norm_num) (by norm_num)
        | exact hq 10 30 (by norm_num) (by norm_num)
        | exact hq 10 40 (by norm_num) (by norm_num)
        | norm_num⟩
  · unfold execute_strategy
    rw [if_neg (by decide), if_neg (by decide), if_neg (by decide),
      if_neg (by decide), if_pos rfl]
    repeat' split
    all_goals exact ⟨by simp,
      by first
        | exact fun _ => hq2 40 80 (by norm_num) (by norm_num)
        | simp,
      by first
        | exact hq 40 80 (by norm_num) (by norm_num)
        | norm_num⟩

/-- Claim C4, witness: the Sniper strategy at price 1 with draw 0 buys the
minimum of its dip range; quantity 30 is within `[0, 80]`. -/
theorem C4_witness :
    ("Sniper" ∈ STRATEGIES ∧ mkRat 1 10 ≤ (1 : ℚ) ∧ (1 : ℚ) ≤ 10
      ∧ (∀ lo hi : ℕ, lo ≤ hi →
          lo ≤ (fun lo _ => lo) lo hi ∧ (fun lo _ => lo) lo hi ≤ hi))
    ∧ (((execute_strategy "Sniper" 1 0 (fun lo _ => lo)).1 = TradeAction.hold
          → (execute_strategy "Sniper" 1 0 (fun lo _ => lo)).2 = 0)
       ∧ ((execute_strategy "Sniper" 1 0 (fun lo _ => lo)).1 ≠ TradeAction.hold
          → 10 ≤ (execute_strategy "Sniper" 1 0 (fun lo _ => lo)).2)
       ∧ (execute_strategy "Sniper" 1 0 (fun lo _ => lo)).2 ≤ 80) :=
  ⟨⟨by decide, by decide, by decide, fun lo hi h => ⟨le_refl lo, h⟩⟩,
   C4_decision_quantity_bounds "Sniper" (by decide) 1 0 (fun lo _ => lo)
     (by decide) (by decide) (fun lo hi h => ⟨le_refl lo, h⟩)⟩
